import Mathlib

/-!
A verification development for the KeraDB embedded document/vector database,
as described by its documentation. The engine itself ships as a library in a
systems language; this file gives a faithful executable model of the core
storage, codec, index, query, update and vector-search behaviour, and proves
the documented laws about it.

Machine integers are modelled as `Int`/`Nat` with explicit bounds where the
fixed-width encoding matters; IEEE-754 doubles are modelled by their 64-bit
bit patterns (a `Nat` below `2^64`), which is exactly what the codec stores;
vector components are modelled as exact rationals standing for the engine's
floating-point values. Field paths are modelled as single top-level field
names, which is all the properties below exercise (dot-notation descent and
array broadcast are orthogonal to them).
-/

namespace KeraDB

/-! Modelled from the spec: the document value model — a dynamically typed
tagged variant over strings, numbers (integer and floating-point
distinguished), booleans, null, nested mappings, ordered sequences and
timestamps. Floats are carried as their 64-bit IEEE-754 bit pattern;
timestamps as a fixed-width epoch count with sub-second resolution.
`VList` and `Fields` are the sequence and mapping spines, kept as mutual
inductives so that all model functions are structurally recursive. -/
mutual

/-- A document value: the tagged dynamic type of the engine. -/
inductive Value : Type where
  | vNull : Value
  | vBool : Bool → Value
  | vInt : Int → Value
  | vFloat : Nat → Value
  | vStr : String → Value
  | vTime : Nat → Value
  | vArr : VList → Value
  | vObj : Fields → Value

inductive VList : Type where
  | nil : VList
  | cons : Value → VList → VList

inductive Fields : Type where
  | nil : Fields
  | cons : String → Value → Fields → Fields

end

mutual

/-- Modelled from the spec: deep structural equality on document values, the
equality the engine uses for implicit equality queries, `$addToSet`
membership, and identifier comparison. -/
def beqV : Value → Value → Bool
  | .vNull, .vNull => true
  | .vBool a, .vBool b => a == b
  | .vInt a, .vInt b => a == b
  | .vFloat a, .vFloat b => a == b
  | .vStr a, .vStr b => a == b
  | .vTime a, .vTime b => a == b
  | .vArr a, .vArr b => beqL a b
  | .vObj a, .vObj b => beqF a b
  | _, _ => false

def beqL : VList → VList → Bool
  | .nil, .nil => true
  | .cons x xs, .cons y ys => beqV x y && beqL xs ys
  | _, _ => false

def beqF : Fields → Fields → Bool
  | .nil, .nil => true
  | .cons k v t, .cons k2 v2 t2 => k == k2 && beqV v v2 && beqF t t2
  | _, _ => false

end

/-- Number of elements of a value-list spine. -/
def lenL : VList → Nat
  | .nil => 0
  | .cons _ t => lenL t + 1

/-- Number of fields of a mapping spine. -/
def lenF : Fields → Nat
  | .nil => 0
  | .cons _ _ t => lenF t + 1

/-- Convert the sequence spine to an ordinary list (used by the multikey
index projection and by array-membership checks). -/
def VList.toList : VList → List Value
  | .nil => []
  | .cons v t => v :: VList.toList t

/-- Append one element at the end of a sequence (the `$push` primitive). -/
def appendVL : VList → Value → VList
  | .nil, v => .cons v .nil
  | .cons x t, v => .cons x (appendVL t v)

/-- Does the sequence contain an element deep-equal to `v`? -/
def containsVL : VList → Value → Bool
  | .nil, _ => false
  | .cons x t, v => beqV x v || containsVL t v

/-- Remove every element deep-equal to `v` (the `$pull` primitive). -/
def removeAllVL : VList → Value → VList
  | .nil, _ => .nil
  | .cons x t, v => if beqV x v then removeAllVL t v else .cons x (removeAllVL t v)

/-! ## Document codec

Modelled from the spec: the engine's compact binary on-page representation.
`encode` lays a document out as a tag byte followed by a fixed-width or
length-prefixed payload; `decode` parses it back and fails (returns `none`,
the model of `CorruptData`) on malformed input. Integers are 8-byte
two's-complement, floats their 8-byte bit pattern, timestamps an 8-byte
epoch count, strings a length prefix plus 4-byte code points, sequences and
mappings a count prefix followed by the encoded elements. -/

/-- Little-endian fixed-width encoding of a natural number into `w` bytes
(the value is taken modulo `2 ^ (8 * w)`). -/
def natToBytes : Nat → Nat → List Nat
  | 0, _ => []
  | w + 1, n => n % 256 :: natToBytes w (n / 256)

/-- Read back `w` little-endian bytes; fails if the input is too short. -/
def readBytes : Nat → List Nat → Option (Nat × List Nat)
  | 0, bs => some (0, bs)
  | _ + 1, [] => none
  | w + 1, b :: bs => (readBytes w bs).map fun p => (b + 256 * p.1, p.2)

/-- 8-byte two's-complement encoding of a 64-bit integer. -/
def encInt (i : Int) : List Nat :=
  natToBytes 8 (i % (2 ^ 64 : Int)).toNat

/-- Interpret an 8-byte payload as a two's-complement 64-bit integer. -/
def decIntOf (n : Nat) : Int :=
  if n < 2 ^ 63 then (n : Int) else (n : Int) - 2 ^ 64

/-- Encode a string as an 8-byte length followed by 4-byte code points. -/
def encStr (s : String) : List Nat :=
  natToBytes 8 s.data.length ++ (s.data.map fun c => natToBytes 4 c.toNat).flatten

/-- Read `k` 4-byte code points. -/
def readChars : Nat → List Nat → Option (List Char × List Nat)
  | 0, bs => some ([], bs)
  | k + 1, bs =>
    (readBytes 4 bs).bind fun p =>
      (readChars k p.2).map fun q => (Char.ofNat p.1 :: q.1, q.2)

/-- Decode a length-prefixed string. -/
def decStr (bs : List Nat) : Option (String × List Nat) :=
  (readBytes 8 bs).bind fun p =>
    (readChars p.1 p.2).map fun q => (String.mk q.1, q.2)

mutual

/-- Modelled from the spec: encode one value as a tag byte plus payload. -/
def encV : Value → List Nat
  | .vNull => [0]
  | .vBool b => [1, if b then 1 else 0]
  | .vInt i => 2 :: encInt i
  | .vFloat n => 3 :: natToBytes 8 n
  | .vStr s => 4 :: encStr s
  | .vTime t => 5 :: natToBytes 8 t
  | .vArr xs => 6 :: (natToBytes 8 (lenL xs) ++ encL xs)
  | .vObj fs => 7 :: (natToBytes 8 (lenF fs) ++ encF fs)

def encL : VList → List Nat
  | .nil => []
  | .cons v t => encV v ++ encL t

def encF : Fields → List Nat
  | .nil => []
  | .cons k v t => encStr k ++ (encV v ++ encF t)

end

mutual

/-- Modelled from the spec: parse one encoded value; `fuel` only bounds the
recursion depth and any fuel at least `szV` of the encoded value suffices. -/
def decV : Nat → List Nat → Option (Value × List Nat)
  | 0, _ => none
  | _ + 1, 0 :: r => some (.vNull, r)
  | _ + 1, 1 :: b :: r =>
    if b = 1 then some (.vBool true, r)
    else if b = 0 then some (.vBool false, r) else none
  | _ + 1, 2 :: r => (readBytes 8 r).map fun p => (.vInt (decIntOf p.1), p.2)
  | _ + 1, 3 :: r => (readBytes 8 r).map fun p => (.vFloat p.1, p.2)
  | _ + 1, 4 :: r => (decStr r).map fun p => (.vStr p.1, p.2)
  | _ + 1, 5 :: r => (readBytes 8 r).map fun p => (.vTime p.1, p.2)
  | fuel + 1, 6 :: r =>
    (readBytes 8 r).bind fun p =>
      (decLn fuel p.1 p.2).map fun q => (.vArr q.1, q.2)
  | fuel + 1, 7 :: r =>
    (readBytes 8 r).bind fun p =>
      (decFn fuel p.1 p.2).map fun q => (.vObj q.1, q.2)
  | _ + 1, _ => none

def decLn : Nat → Nat → List Nat → Option (VList × List Nat)
  | 0, _, _ => none
  | _ + 1, 0, bs => some (.nil, bs)
  | fuel + 1, cnt + 1, bs =>
    (decV fuel bs).bind fun p =>
      (decLn fuel cnt p.2).map fun q => (.cons p.1 q.1, q.2)

def decFn : Nat → Nat → List Nat → Option (Fields × List Nat)
  | 0, _, _ => none
  | _ + 1, 0, bs => some (.nil, bs)
  | fuel + 1, cnt + 1, bs =>
    (decStr bs).bind fun s =>
      (decV fuel s.2).bind fun p =>
        (decFn fuel cnt p.2).map fun q => (.cons s.1 p.1 q.1, q.2)

end

mutual

/-- Fuel measure for the decoder: the fuel needed to decode a value back. -/
def szV : Value → Nat
  | .vArr xs => 1 + szL xs
  | .vObj fs => 1 + szF fs
  | _ => 1

def szL : VList → Nat
  | .nil => 1
  | .cons v t => szV v + szL t

def szF : Fields → Nat
  | .nil => 1
  | .cons _ v t => szV v + szF t

end

/-- Modelled from the spec: `encode(Document) -> bytes`. -/
def encode (d : Value) : List Nat := encV d

/-- Modelled from the spec: `decode(bytes) -> Document`; a malformed or
truncated payload yields `none` (the `CorruptData` failure). -/
def decode (bs : List Nat) : Option Value :=
  (decV bs.length bs).bind fun p => if p.2.isEmpty then some p.1 else none

mutual

/-- Modelled from the spec: the representable documents — every number fits
in 64 bits (two's-complement integers, IEEE-754 double bit patterns),
timestamps fit in the fixed-width epoch field, and every length fits in its
8-byte prefix. -/
def reprV : Value → Bool
  | .vNull => true
  | .vBool _ => true
  | .vInt i => decide (-(2 ^ 63) ≤ i) && decide (i < 2 ^ 63)
  | .vFloat n => decide (n < 2 ^ 64)
  | .vStr s => decide (s.data.length < 2 ^ 64)
  | .vTime t => decide (t < 2 ^ 64)
  | .vArr xs => decide (lenL xs < 2 ^ 64) && reprL xs
  | .vObj fs => decide (lenF fs < 2 ^ 64) && reprF fs

def reprL : VList → Bool
  | .nil => true
  | .cons v t => reprV v && reprL t

def reprF : Fields → Bool
  | .nil => true
  | .cons k v t => decide (k.data.length < 2 ^ 64) && reprV v && reprF t

end

/-! ## Field access

Modelled from the spec: documents are mappings addressed by field name.
`getF` returns the first binding of a field, `setF` creates or overwrites
it, `removeF` deletes it. -/

/-- Look a field up in a document. -/
def getF : Fields → String → Option Value
  | .nil, _ => none
  | .cons k v t, f => if k = f then some v else getF t f

/-- Create or overwrite a field of a document. -/
def setF : Fields → String → Value → Fields
  | .nil, f, x => .cons f x .nil
  | .cons k v t, f, x => if k = f then .cons k x t else .cons k v (setF t f x)

/-- Remove a field of a document if present (`$unset`). -/
def removeF : Fields → String → Fields
  | .nil, _ => .nil
  | .cons k v t, f => if k = f then removeF t f else .cons k v (removeF t f)

/-- Modelled from the spec: the caller-visible typed failure taxonomy. -/
inductive KErr : Type where
  | DuplicateKey : KErr
  | DocumentNotFound : Value → KErr
  | CollectionNotFound : String → KErr
  | DimensionMismatch : KErr
  | InvalidQuery : KErr
  | IoFailure : KErr
  | CorruptData : KErr

/-! ## Query evaluator

Modelled from the spec: the comparison and matching core of the operator
language. Ordered comparison is defined within one runtime type only;
values of non-comparable (distinct) runtime types never satisfy a range
operator. -/

/-- Runtime type tag of a value (what `$type` inspects). -/
def typeTag : Value → Nat
  | .vNull => 0
  | .vBool _ => 1
  | .vInt _ => 2
  | .vFloat _ => 3
  | .vStr _ => 4
  | .vTime _ => 5
  | .vArr _ => 6
  | .vObj _ => 7

/-- Modelled from the spec: ordered comparison of two document values.
Comparable pairs (same scalar runtime type) yield an `Ordering`;
cross-type pairs and structured values yield `none` (not comparable). -/
def cmpV : Value → Value → Option Ordering
  | .vInt a, .vInt b => some (compare a b)
  | .vStr a, .vStr b => some (compare a b)
  | .vBool a, .vBool b => some (compare a b)
  | .vTime a, .vTime b => some (compare a b)
  | _, _ => none

/-- A comparison/equality operator applied to one field, the fragment of
the operator language the properties below exercise. -/
inductive QOp : Type where
  | qEq : Value → QOp
  | qNe : Value → QOp
  | qGt : Value → QOp
  | qGte : Value → QOp
  | qLt : Value → QOp
  | qLte : Value → QOp
  | qExists : Bool → QOp

/-- Modelled from the spec: does the (possibly absent) field value satisfy
one operator? Range operators require a comparable pair; an absent field
never satisfies them. -/
def matchOp : Option Value → QOp → Bool
  | fv, .qEq v => match fv with | some w => beqV w v | none => false
  | fv, .qNe v => !(match fv with | some w => beqV w v | none => false)
  | fv, .qGt v => match fv with | some w => cmpV w v == some .gt | none => false
  | fv, .qGte v =>
    match fv with
    | some w => cmpV w v == some .gt || cmpV w v == some .eq
    | none => false
  | fv, .qLt v => match fv with | some w => cmpV w v == some .lt | none => false
  | fv, .qLte v =>
    match fv with
    | some w => cmpV w v == some .lt || cmpV w v == some .eq
    | none => false
  | fv, .qExists b => fv.isSome == b

/-- A conjunctive query: one operator per listed field clause (the
implicit `$and` of multiple top-level clauses). -/
structure QClause : Type where
  field : String
  op : QOp

/-- Modelled from the spec: `match(doc, queryExpr) -> bool` for a
conjunction of field clauses. -/
def matchDoc (d : Fields) (q : List QClause) : Bool :=
  q.all fun cl => matchOp (getF d cl.field) cl.op

/-! ## Update engine -/

/-- One update-operator clause. -/
inductive UOp : Type where
  | uSet : String → Value → UOp
  | uUnset : String → UOp
  | uInc : String → Int → UOp
  | uPush : String → Value → UOp
  | uPull : String → Value → UOp
  | uAddToSet : String → Value → UOp

/-- Modelled from the spec: `applyUpdate(doc, updateExpr) -> newDoc`, pure.
`$set` creates or overwrites; `$unset` removes; `$inc` starts an absent
field from zero; `$push` appends, creating the array if absent and failing
on a non-array field; `$pull` removes every equal element; `$addToSet` is
`$push` guarded by deep-equality membership (a no-op when an equal element
exists). -/
def applyU (d : Fields) : UOp → Except KErr Fields
  | .uSet f v => .ok (setF d f v)
  | .uUnset f => .ok (removeF d f)
  | .uInc f n =>
    match getF d f with
    | none => .ok (setF d f (.vInt n))
    | some (.vInt m) => .ok (setF d f (.vInt (m + n)))
    | some _ => .error .InvalidQuery
  | .uPush f v =>
    match getF d f with
    | none => .ok (setF d f (.vArr (.cons v .nil)))
    | some (.vArr xs) => .ok (setF d f (.vArr (appendVL xs v)))
    | some _ => .error .InvalidQuery
  | .uPull f v =>
    match getF d f with
    | some (.vArr xs) => .ok (setF d f (.vArr (removeAllVL xs v)))
    | some _ => .error .InvalidQuery
    | none => .ok d
  | .uAddToSet f v =>
    match getF d f with
    | none => .ok (setF d f (.vArr (.cons v .nil)))
    | some (.vArr xs) =>
      if containsVL xs v then .ok d else .ok (setF d f (.vArr (appendVL xs v)))
    | some _ => .error .InvalidQuery

/-! ## Index manager and collection manager

Modelled from the spec: a collection is a set of (identifier, document)
pairs plus its indexes. An index entry maps a key — the tuple of extracted
field values, with a designated absent key for a missing field and one
entry per element for an array-valued field — to the identifier of the
document it came from. Index maintenance is incremental: every mutation
adds or removes exactly the entries of the touched document. -/

/-- The keys one field contributes: the designated absent key for a missing
field, one key per element for an array-valued field (multikey), and the
value itself otherwise. -/
def fieldKeys (d : Fields) (f : String) : List (Option Value) :=
  match getF d f with
  | none => [none]
  | some (.vArr xs) => xs.toList.map some
  | some v => [some v]

/-- The compound keys a document contributes to an index over `fs`: the
cross product, in declared field order, of each field's keys. -/
def indexKeys (fs : List String) (d : Fields) : List (List (Option Value)) :=
  match fs with
  | [] => [[]]
  | f :: rest => (fieldKeys d f).flatMap fun k => (indexKeys rest d).map fun t => k :: t

/-- Deep equality of index keys. -/
def beqKey : List (Option Value) → List (Option Value) → Bool
  | [], [] => true
  | none :: a, none :: b => beqKey a b
  | some x :: a, some y :: b => beqV x y && beqKey a b
  | _, _ => false

/-- The index entries a document with identifier `id` contributes. -/
def entriesFor (fs : List String) (id : Value) (d : Fields) :
    List (List (Option Value) × Value) :=
  (indexKeys fs d).map fun k => (k, id)

/-- A secondary index: ordered field paths, a uniqueness flag, and its
entry list mapping computed keys to document identifiers. -/
structure Index : Type where
  fields : List String
  unique : Bool
  entries : List (List (Option Value) × Value)

/-- A collection: its documents keyed by identifier, its indexes, and the
generator state for engine-assigned identifiers. -/
structure Coll : Type where
  docs : List (Value × Fields)
  indexes : List Index
  nextId : Nat

/-- The empty collection. -/
def emptyColl : Coll := { docs := [], indexes := [], nextId := 0 }

/-- Does the collection hold a document with this identifier? -/
def containsId (c : Coll) (id : Value) : Bool :=
  c.docs.any fun p => beqV p.1 id

/-- Modelled from the spec: does inserting or updating document `d` as
identifier `id` violate some unique index — that is, does a computed key of
`d` already map to a different document identifier? -/
def uniqueConflict (c : Coll) (id : Value) (d : Fields) : Bool :=
  c.indexes.any fun ix =>
    ix.unique && (indexKeys ix.fields d).any fun k =>
      ix.entries.any fun e => beqKey e.1 k && !beqV e.2 id

/-- Commit a new document: append it to storage and add its entries to
every index (the Index Manager's `onInsert` hook). -/
def addDoc (c : Coll) (id : Value) (d : Fields) : Coll :=
  { c with
    docs := c.docs ++ [(id, d)],
    indexes := c.indexes.map fun ix =>
      { ix with entries := ix.entries ++ entriesFor ix.fields id d } }

/-- The identifier an insert will use: the document's explicit identifier
when it has one, the engine-generated one otherwise. -/
def chooseId (c : Coll) (d : Fields) : Value :=
  match getF d "_id" with
  | some i => i
  | none => Value.vInt (Int.ofNat c.nextId)

/-- Modelled from the spec: `insert(collection, doc) -> id`. An explicit
identifier is rejected with `DuplicateKey` when already present; otherwise
the engine assigns a fresh generated identifier. Unique-index violations
are rejected with `DuplicateKey`. On success the document is stored with
its identifier field bound to the chosen identifier and all its index
entries are committed together. -/
def insert (c : Coll) (d : Fields) : Except KErr (Value × Coll) :=
  let id := chooseId c d
  let d2 := setF d "_id" id
  if containsId c id then .error .DuplicateKey
  else if uniqueConflict c id d2 then .error .DuplicateKey
  else .ok (id, { addDoc c id d2 with nextId := c.nextId + 1 })

/-- Modelled from the spec: `update(collection, id, newDoc)` replaces the
document's full contents by identifier (keeping the identifier itself),
updating storage and every index with the old/new diff, or fails with
`DocumentNotFound` / `DuplicateKey`. -/
def update (c : Coll) (id : Value) (d : Fields) : Except KErr Coll :=
  if containsId c id then
    let d2 := setF d "_id" id
    if uniqueConflict c id d2 then .error .DuplicateKey
    else
      .ok { c with
        docs := (c.docs.filter fun p => !beqV p.1 id) ++ [(id, d2)],
        indexes := c.indexes.map fun ix =>
          { ix with entries :=
              (ix.entries.filter fun e => !beqV e.2 id) ++ entriesFor ix.fields id d2 } }
  else .error (.DocumentNotFound id)

/-- Modelled from the spec: `delete(collection, id)` removes the stored
document and every index entry referencing its identifier. -/
def erase (c : Coll) (id : Value) : Except KErr Coll :=
  if containsId c id then
    .ok { c with
      docs := c.docs.filter fun p => !beqV p.1 id,
      indexes := c.indexes.map fun ix =>
        { ix with entries := ix.entries.filter fun e => !beqV e.2 id } }
  else .error (.DocumentNotFound id)

/-- Modelled from the spec: `createIndex(collection, fieldSpec, options)`;
repeated creation with an identical field spec is idempotent, and a new
index is backfilled from a full scan. -/
def createIndex (c : Coll) (fs : List String) (uniq : Bool) : Coll :=
  if c.indexes.any fun ix => ix.fields == fs then c
  else
    { c with indexes := c.indexes ++
        [{ fields := fs, unique := uniq,
           entries := c.docs.flatMap fun p => entriesFor fs p.1 p.2 }] }

/-- Modelled from the spec: `find` filters a full scan by the query
predicate (index-assisted planning narrows candidates but never changes
the result set). -/
def find (c : Coll) (q : List QClause) : List Fields :=
  (c.docs.map fun p => p.2).filter fun d => matchDoc d q

/-- One collection mutation, as issued by a caller. -/
inductive Op : Type where
  | opInsert : Fields → Op
  | opUpdate : Value → Fields → Op
  | opDelete : Value → Op
  | opCreateIndex : List String → Bool → Op

/-- Apply one mutation; a failed mutation leaves the collection unchanged
(the whole multi-step mutation aborts). -/
def applyOp (c : Coll) : Op → Coll
  | .opInsert d => match insert c d with | .ok p => p.2 | .error _ => c
  | .opUpdate id d => match update c id d with | .ok c2 => c2 | .error _ => c
  | .opDelete id => match erase c id with | .ok c2 => c2 | .error _ => c
  | .opCreateIndex fs u => createIndex c fs u

/-- Apply a sequence of mutations in order. -/
def applyOps (c : Coll) (ops : List Op) : Coll := ops.foldl applyOp c

/-- The index-collection consistency invariant: every index's contents
exactly equal the projection of a full scan onto its field set. -/
def indexOk (c : Coll) : Prop :=
  ∀ ix ∈ c.indexes, ix.entries = c.docs.flatMap fun p => entriesFor ix.fields p.1 p.2

/-! ## Database: named collections -/

/-- A database: its named collections. -/
structure DB : Type where
  colls : List (String × Coll)

/-- The empty database. -/
def emptyDB : DB := { colls := [] }

/-- Look a collection up by name. -/
def getColl (db : DB) (n : String) : Option Coll :=
  (db.colls.find? fun p => p.1 == n).map fun p => p.2

/-- Store a collection under a name, replacing the previous binding. -/
def putColl (db : DB) (n : String) (c : Coll) : DB :=
  { colls := (db.colls.filter fun p => !(p.1 == n)) ++ [(n, c)] }

/-- Modelled from the spec: database-level insert; the collection is
created implicitly on first write. -/
def dbInsert (db : DB) (n : String) (d : Fields) : Except KErr (Value × DB) :=
  (insert ((getColl db n).getD emptyColl) d).map fun p => (p.1, putColl db n p.2)

/-- Modelled from the spec: `findById`; a missing collection fails with
`CollectionNotFound` carrying the name, a missing document fails with
`DocumentNotFound` carrying the identifier. -/
def dbFindById (db : DB) (n : String) (id : Value) : Except KErr Fields :=
  match getColl db n with
  | none => .error (.CollectionNotFound n)
  | some c =>
    match c.docs.find? fun p => beqV p.1 id with
    | none => .error (.DocumentNotFound id)
    | some p => .ok p.2

/-! ## Vector index subsystem

Modelled from the spec: a vector collection stores fixed-dimensionality
vectors with optional metadata under generated identifiers. Search returns
the top-k stored vectors under the configured metric's closer-ordering;
for the cosine metric the score is one minus cosine similarity and the
engine normalizes internally, which the model realises by an exact
cross-multiplied comparison of similarities that divides by both norms. -/

/-- Distance metrics selectable at vector-collection creation. -/
inductive Metric : Type where
  | cosine : Metric
  | euclidean : Metric
  | dotProduct : Metric
  | manhattan : Metric

/-- Immutable vector-collection configuration. -/
structure VectorConfig : Type where
  dims : Nat
  metric : Metric

/-- A vector collection: configuration, stored (id, vector, metadata)
triples, and the generated-identifier state. -/
structure VColl : Type where
  config : VectorConfig
  vecs : List (Nat × List ℚ × Option Fields)
  nextVId : Nat

/-- Modelled from the spec: `insertVector` rejects a vector whose length
differs from the configured dimensionality with `DimensionMismatch`; on
success the vector is appended under a fresh generated identifier. -/
def insertVector (vc : VColl) (v : List ℚ) (md : Option Fields) :
    Except KErr (Nat × VColl) :=
  if v.length = vc.config.dims then
    .ok (vc.nextVId,
      { vc with vecs := vc.vecs ++ [(vc.nextVId, v, md)], nextVId := vc.nextVId + 1 })
  else .error .DimensionMismatch

/-- Inner product of two vectors (componentwise, over exact rationals). -/
def dotP : List ℚ → List ℚ → ℚ
  | a :: as, b :: bs => a * b + dotP as bs
  | _, _ => 0

/-- Squared Euclidean distance. -/
def dist2 : List ℚ → List ℚ → ℚ
  | a :: as, b :: bs => (a - b) * (a - b) + dist2 as bs
  | _, _ => 0

/-- Manhattan distance. -/
def distL1 : List ℚ → List ℚ → ℚ
  | a :: as, b :: bs => |a - b| + distL1 as bs
  | _, _ => 0

/-- Modelled from the spec: is `a` strictly closer to the query `q` than
`b` under the cosine score `1 - dot(q,x) / (‖q‖ * ‖x‖)`? Both similarities
share the factor `1 / ‖q‖`, so the comparison divides only by the stored
vectors' norms — the internal normalization — and is decided exactly by
comparing squares with the signs of the inner products. -/
def cosCloser (q a b : List ℚ) : Bool :=
  let da := dotP q a
  let db := dotP q b
  let na := dotP a a
  let nb := dotP b b
  if 0 < da then (if 0 < db then decide (db * db * na < da * da * nb) else true)
  else if 0 < db then false
  else decide (da * da * nb < db * db * na)

/-- Modelled from the spec: the configured metric's strict closer-ordering
on stored vectors with respect to a query. -/
def closer (m : Metric) (q a b : List ℚ) : Bool :=
  match m with
  | .cosine => cosCloser q a b
  | .euclidean => decide (dist2 q a < dist2 q b)
  | .dotProduct => decide (dotP q b < dotP q a)
  | .manhattan => decide (distL1 q a < distL1 q b)

/-- Insert a candidate into a result list kept ordered by the
closer-ordering. -/
def insertRanked (isCloser : α → α → Bool) (x : α) : List α → List α
  | [] => [x]
  | y :: ys => if isCloser x y then x :: y :: ys else y :: insertRanked isCloser x ys

/-- Rank all candidates by the closer-ordering (stable for ties). -/
def rankAll (isCloser : α → α → Bool) : List α → List α
  | [] => []
  | x :: xs => insertRanked isCloser x (rankAll isCloser xs)

/-- Modelled from the spec: `search(collection, queryVector, k)` — the
identifiers of the top-`k` stored vectors in the configured metric's
closer-ordering. -/
def vectorSearch (vc : VColl) (q : List ℚ) (k : Nat) : List Nat :=
  ((rankAll (fun a b => closer vc.config.metric q a.2 b.2)
      (vc.vecs.map fun t => (t.1, t.2.1))).take k).map fun p => p.1

/-! ## Concrete instances used by the witnesses below -/

/-- The document with a single integer `age` field. -/
def ageDoc (n : Int) : Fields := .cons "age" (.vInt n) .nil

/-- A collection holding exactly the documents with ages 17, 18 and 25. -/
def agesColl : Coll :=
  { docs := [(.vInt 1, ageDoc 17), (.vInt 2, ageDoc 18), (.vInt 3, ageDoc 25)],
    indexes := [], nextId := 4 }

/-- The one-element array of the string a. -/
def tagsA : VList := .cons (.vStr "a") .nil

/-- The two-element array of the strings a and x. -/
def tagsAX : VList := .cons (.vStr "a") (.cons (.vStr "x") .nil)

/-- A document whose tags field is the array of the string a. -/
def tagsDoc : Fields := .cons "tags" (.vArr tagsA) .nil

/-- A document with the explicit identifier u1. -/
def dupDoc : Fields := .cons "_id" (.vStr "u1") .nil

/-- The collection obtained by inserting `dupDoc` into the empty one. -/
def dupColl : Coll := applyOp emptyColl (.opInsert dupDoc)

/-- A document with one email field. -/
def emailDoc : Fields := .cons "email" (.vStr "a@x.com") .nil

/-- The empty collection with a unique index on email. -/
def uColl : Coll := createIndex emptyColl ["email"] true

/-- `uColl` after inserting `emailDoc` once. -/
def uColl2 : Coll := applyOp uColl (.opInsert emailDoc)

/-- An empty 4-dimensional cosine vector collection. -/
def vColl4 : VColl := { config := { dims := 4, metric := .cosine }, vecs := [], nextVId := 0 }

/-- A 4-dimensional cosine collection holding the two unit basis vectors. -/
def cosColl : VColl :=
  { config := { dims := 4, metric := .cosine },
    vecs := [(0, [1, 0, 0, 0], none), (1, [0, 1, 0, 0], none)], nextVId := 2 }

/-- The query vector of the vector-search sanity property. -/
def qVec : List ℚ := [9 / 10, 1 / 10, 0, 0]

/-- A document with one name field. -/
def aliceDoc : Fields := .cons "name" (.vStr "Alice") .nil

/-- A database holding one empty collection called users. -/
def dbWithUsers : DB := putColl emptyDB "users" emptyColl

/-- A sample mutation sequence: create an index, two inserts, an update and
a delete. -/
def opsW : List Op :=
  [.opCreateIndex ["age"] false, .opInsert (ageDoc 17), .opInsert (ageDoc 18),
   .opUpdate (.vInt 0) (ageDoc 19), .opDelete (.vInt 1)]

/-- A sample document exercising every value type: strings, integers at the
64-bit boundary, a float bit pattern (1.0), booleans, null, a timestamp and
a nested array. -/
def wDoc : Value :=
  .vObj (.cons "s" (.vStr "hi")
    (.cons "i" (.vInt (-5))
      (.cons "big" (.vInt (2 ^ 63 - 1))
        (.cons "f" (.vFloat 4607182418800017408)
          (.cons "b" (.vBool true)
            (.cons "n" .vNull
              (.cons "t" (.vTime 1733500800123)
                (.cons "a" (.vArr (.cons (.vInt 1) (.cons (.vStr "x")
                    (.cons (.vArr .nil) .nil)))) .nil))))))))

/-- A document with the other email value. -/
def emailB : Fields := .cons "email" (.vStr "b@x.com") .nil

/-- `uColl2` after also inserting `emailB` (two documents, distinct emails). -/
def uColl3 : Coll := applyOp uColl2 (.opInsert emailB)

/-- A document with an explicit identifier and the already-present email. -/
def emailZ : Fields := .cons "_id" (.vStr "z") (.cons "email" (.vStr "a@x.com") .nil)

/-! ## Theorems -/

mutual

/-- Deep equality is reflexive. -/
theorem beqV_refl : ∀ v : Value, beqV v v = true
  | .vNull => rfl
  | .vBool a => by simp [beqV]
  | .vInt a => by simp [beqV]
  | .vFloat a => by simp [beqV]
  | .vStr a => by simp [beqV]
  | .vTime a => by simp [beqV]
  | .vArr a => by simpa [beqV] using beqL_refl a
  | .vObj a => by simpa [beqV] using beqF_refl a

theorem beqL_refl : ∀ xs : VList, beqL xs xs = true
  | .nil => rfl
  | .cons x t => by simp [beqL, beqV_refl x, beqL_refl t]

theorem beqF_refl : ∀ fs : Fields, beqF fs fs = true
  | .nil => rfl
  | .cons k v t => by simp [beqF, beqV_refl v, beqF_refl t]

end

/-- Setting a field makes it readable back. -/
theorem getF_setF_same : ∀ (d : Fields) (f : String) (x : Value),
    getF (setF d f x) f = some x
  | .nil, f, x => by simp [setF, getF]
  | .cons k v t, f, x => by
    by_cases h : k = f
    · simp [setF, getF, h]
    · simp [setF, getF, h, getF_setF_same t f x]

/-- Setting a field leaves every other field unchanged. -/
theorem getF_setF_other : ∀ (d : Fields) (f g : String) (x : Value), g ≠ f →
    getF (setF d f x) g = getF d g
  | .nil, f, g, x, h => by
    have hfg : ¬f = g := fun hh => h hh.symm
    simp [setF, getF, hfg]
  | .cons k v t, f, g, x, h => by
    by_cases hk : k = f
    · subst hk
      have hkg : ¬k = g := fun hh => h hh.symm
      simp [setF, getF, hkg]
    · simp only [setF, if_neg hk, getF]
      by_cases hg : k = g <;> simp [hg, getF_setF_other t f g x h]

/-- C3. Identifier uniqueness: when an insert of a document with an
explicit identifier succeeds, a subsequent insert of any document carrying
the same explicit identifier into the resulting collection fails with
`DuplicateKey` (and, the operations being pure, returns no modified
collection). -/
theorem insert_duplicate_id (c cA : Coll) (d d2 : Fields) (id : Value)
    (h1 : getF d "_id" = some id) (h2 : insert c d = .ok (id, cA))
    (h3 : getF d2 "_id" = some id) :
    insert cA d2 = .error .DuplicateKey := by
  have hid : chooseId c d = id := by simp [chooseId, h1]
  simp only [insert, hid] at h2
  split_ifs at h2 with hc hu
  have hA : ({ addDoc c id (setF d "_id" id) with nextId := c.nextId + 1 } : Coll) = cA := by
    simpa using h2
  have hid2 : chooseId cA d2 = id := by simp [chooseId, h3]
  have hcont : containsId cA id = true := by
    rw [← hA]
    simp [containsId, addDoc, List.any_append, beqV_refl]
  simp [insert, hid2, hcont]

/-- C3 witness: inserting u1 into the empty collection succeeds, inserting
it again fails with `DuplicateKey`. -/
theorem insert_duplicate_id_witness :
    insert emptyColl dupDoc = .ok (.vStr "u1", dupColl)
    ∧ insert dupColl dupDoc = .error .DuplicateKey :=
  ⟨rfl, insert_duplicate_id emptyColl dupColl dupDoc dupDoc (.vStr "u1") rfl rfl rfl⟩

/-- C5. Range queries: on the collection holding exactly ages 17, 18, 25,
the query age gte 18 returns exactly the documents with ages 18 and 25 and
the query age lt 18 returns exactly the document with age 17; moreover
ordered comparison is `none` on cross-type pairs, so no range operator ever
matches a value of a different runtime type. -/
theorem range_query_correct :
    find agesColl [⟨"age", .qGte (.vInt 18)⟩] = [ageDoc 18, ageDoc 25]
    ∧ find agesColl [⟨"age", .qLt (.vInt 18)⟩] = [ageDoc 17]
    ∧ ∀ a b : Value, typeTag a ≠ typeTag b →
        cmpV a b = none
        ∧ matchOp (some a) (.qGt b) = false ∧ matchOp (some a) (.qGte b) = false
        ∧ matchOp (some a) (.qLt b) = false ∧ matchOp (some a) (.qLte b) = false := by
  refine ⟨rfl, rfl, ?_⟩
  intro a b h
  have hc : cmpV a b = none := by
    cases a <;> cases b <;> simp_all [typeTag, cmpV]
  exact ⟨hc, by simp [matchOp, hc], by simp [matchOp, hc], by simp [matchOp, hc],
    by simp [matchOp, hc]⟩

/-- C5 witness: the cross-type clause applied to an integer and a string. -/
theorem range_query_correct_witness :
    typeTag (.vInt 18) ≠ typeTag (.vStr "x")
    ∧ (cmpV (.vInt 18) (.vStr "x") = none
       ∧ matchOp (some (.vInt 18)) (.qGt (.vStr "x")) = false
       ∧ matchOp (some (.vInt 18)) (.qGte (.vStr "x")) = false
       ∧ matchOp (some (.vInt 18)) (.qLt (.vStr "x")) = false
       ∧ matchOp (some (.vInt 18)) (.qLte (.vStr "x")) = false) :=
  ⟨by decide, range_query_correct.2.2 (.vInt 18) (.vStr "x") (by decide)⟩

/-- C6. Array update semantics: on any document whose tags field is the
array of the string a, a push of x yields the same document with its tags
field now the array of a and x; applying addToSet of a to that result is a
no-op, because an equal element already exists. -/
theorem push_addToSet_semantics (d : Fields) (h : getF d "tags" = some (.vArr tagsA)) :
    applyU d (.uPush "tags" (.vStr "x")) = .ok (setF d "tags" (.vArr tagsAX))
    ∧ getF (setF d "tags" (.vArr tagsAX)) "tags" = some (.vArr tagsAX)
    ∧ (∀ g, g ≠ "tags" → getF (setF d "tags" (.vArr tagsAX)) g = getF d g)
    ∧ applyU (setF d "tags" (.vArr tagsAX)) (.uAddToSet "tags" (.vStr "a"))
        = .ok (setF d "tags" (.vArr tagsAX)) := by
  have hset : getF (setF d "tags" (.vArr tagsAX)) "tags" = some (.vArr tagsAX) :=
    getF_setF_same ..
  refine ⟨?_, hset, fun g hg => getF_setF_other _ _ _ _ hg, ?_⟩
  · simp only [applyU, h]
    rfl
  · have hmem : containsVL tagsAX (.vStr "a") = true := rfl
    simp only [applyU, hset, hmem, if_true]

/-- C6 witness: the scenario on the concrete one-field document. -/
theorem push_addToSet_semantics_witness :
    getF tagsDoc "tags" = some (.vArr tagsA)
    ∧ (applyU tagsDoc (.uPush "tags" (.vStr "x")) = .ok (setF tagsDoc "tags" (.vArr tagsAX))
       ∧ getF (setF tagsDoc "tags" (.vArr tagsAX)) "tags" = some (.vArr tagsAX)
       ∧ (∀ g, g ≠ "tags" → getF (setF tagsDoc "tags" (.vArr tagsAX)) g = getF tagsDoc g)
       ∧ applyU (setF tagsDoc "tags" (.vArr tagsAX)) (.uAddToSet "tags" (.vStr "a"))
           = .ok (setF tagsDoc "tags" (.vArr tagsAX))) :=
  ⟨rfl, push_addToSet_semantics tagsDoc rfl⟩

/-- C7. Vector dimension check: `insertVector` fails with
`DimensionMismatch` on every vector whose length differs from the
collection's configured dimensionality, returning no modified collection. -/
theorem insertVector_dimension_check (vc : VColl) (v : List ℚ) (md : Option Fields)
    (h : v.length ≠ vc.config.dims) :
    insertVector vc v md = .error .DimensionMismatch := by
  simp [insertVector, h]

/-- C7 witness: a 3-component vector into a 4-dimension collection. -/
theorem insertVector_dimension_check_witness :
    ([1, 0, 0] : List ℚ).length ≠ vColl4.config.dims
    ∧ insertVector vColl4 [1, 0, 0] none = .error .DimensionMismatch :=
  ⟨by decide, insertVector_dimension_check vColl4 [1, 0, 0] none (by decide)⟩

/-- C10. Typed not-found failures: `findById` on a nonexistent collection
fails with `CollectionNotFound` carrying the name, and on an existing
collection without the identifier fails with `DocumentNotFound` carrying
the identifier — in each case by the stated failure and no other. -/
theorem findById_notfound_errors (db : DB) (n : String) (id : Value) :
    (getColl db n = none → dbFindById db n id = .error (.CollectionNotFound n))
    ∧ ∀ c, getColl db n = some c →
        (c.docs.find? fun p => beqV p.1 id) = none →
        dbFindById db n id = .error (.DocumentNotFound id) := by
  constructor
  · intro h
    simp [dbFindById, h]
  · intro c h h2
    simp [dbFindById, h, h2]

/-- C10 witness: a missing collection and an empty collection. -/
theorem findById_notfound_errors_witness :
    (getColl emptyDB "users" = none
     ∧ dbFindById emptyDB "users" (.vStr "i1") = .error (.CollectionNotFound "users"))
    ∧ (getColl dbWithUsers "users" = some emptyColl
       ∧ dbFindById dbWithUsers "users" (.vStr "i1") = .error (.DocumentNotFound (.vStr "i1"))) :=
  ⟨⟨rfl, (findById_notfound_errors emptyDB "users" (.vStr "i1")).1 rfl⟩,
   ⟨rfl, (findById_notfound_errors dbWithUsers "users" (.vStr "i1")).2 emptyColl rfl rfl⟩⟩

/-- C4. Unique index enforcement: with a unique index on email, inserting
the email a at x twice fails the second insert with `DuplicateKey`; in
general an insert or update whose computed unique-index key already maps
to a different document identifier is rejected with `DuplicateKey`. -/
theorem unique_index_duplicate :
    (insert uColl emailDoc = .ok (.vInt 0, uColl2)
     ∧ insert uColl2 emailDoc = .error .DuplicateKey)
    ∧ (∀ (c : Coll) (d : Fields),
        containsId c (chooseId c d) = false →
        uniqueConflict c (chooseId c d) (setF d "_id" (chooseId c d)) = true →
        insert c d = .error .DuplicateKey)
    ∧ (∀ (c : Coll) (id : Value) (d : Fields), containsId c id = true →
        uniqueConflict c id (setF d "_id" id) = true →
        update c id d = .error .DuplicateKey) := by
  refine ⟨⟨rfl, rfl⟩, ?_, ?_⟩
  · intro c d h2 h3
    simp [insert, h2, h3]
  · intro c id d h1 h2
    simp [update, h1, h2]

/-- C4 witness: the general clauses applied to concrete two-document
collections, one conflicting insert and one conflicting update. -/
theorem unique_index_duplicate_witness :
    (containsId uColl2 (chooseId uColl2 emailZ) = false
     ∧ uniqueConflict uColl2 (chooseId uColl2 emailZ)
         (setF emailZ "_id" (chooseId uColl2 emailZ)) = true
     ∧ insert uColl2 emailZ = .error .DuplicateKey)
    ∧ (containsId uColl3 (.vInt 1) = true
       ∧ uniqueConflict uColl3 (.vInt 1) (setF emailDoc "_id" (.vInt 1)) = true
       ∧ update uColl3 (.vInt 1) emailDoc = .error .DuplicateKey) :=
  ⟨⟨rfl, rfl, unique_index_duplicate.2.1 uColl2 emailZ rfl rfl⟩,
   ⟨rfl, rfl, unique_index_duplicate.2.2 uColl3 (.vInt 1) emailDoc rfl rfl⟩⟩

/-- Looking up the name just stored yields the stored collection. -/
theorem getColl_putColl (db : DB) (n : String) (c : Coll) :
    getColl (putColl db n c) n = some c := by
  unfold getColl putColl
  rw [List.find?_append]
  have h1 : (db.colls.filter fun p => !(p.1 == n)).find? (fun p => p.1 == n) = none := by
    refine List.find?_eq_none.mpr ?_
    intro x hx
    have := (List.mem_filter.mp hx).2
    simp_all
  simp [h1, List.find?]

/-- A document appended under an identifier the collection does not yet
contain is what a lookup of that identifier finds. -/
theorem find_fresh_append (docs : List (Value × Fields)) (id : Value) (dd : Fields)
    (h : docs.any (fun p => beqV p.1 id) = false) :
    (docs ++ [(id, dd)]).find? (fun p => beqV p.1 id) = some (id, dd) := by
  rw [List.find?_append]
  have h1 : docs.find? (fun p => beqV p.1 id) = none := by
    refine List.find?_eq_none.mpr ?_
    intro x hx
    simp only [List.any_eq_false] at h
    simpa using h x hx
  simp [h1, List.find?, beqV_refl]

/-- C9. Insert/find round-trip: when a database-level insert succeeds and
returns an identifier, looking that identifier up in the returned database
succeeds and returns the stored document — the inserted document with its
identifier field equal to the returned identifier and every other field
unchanged. -/
theorem insert_findById_roundtrip (db db2 : DB) (n : String) (d : Fields) (id : Value)
    (h : dbInsert db n d = .ok (id, db2)) :
    ∃ d2, dbFindById db2 n id = .ok d2
      ∧ getF d2 "_id" = some id
      ∧ ∀ f, f ≠ "_id" → getF d2 f = getF d f := by
  unfold dbInsert at h
  cases hi : insert ((getColl db n).getD emptyColl) d with
  | error e => rw [hi] at h; simp [Except.map] at h
  | ok p =>
    rw [hi] at h
    simp only [Except.map, Except.ok.injEq, Prod.mk.injEq] at h
    obtain ⟨hid, hdb⟩ := h
    simp only [insert] at hi
    split_ifs at hi with hcont hconf
    injection hi with hpair
    subst hpair
    have hid2 : chooseId ((getColl db n).getD emptyColl) d = id := hid
    subst hid2
    refine ⟨setF d "_id" (chooseId ((getColl db n).getD emptyColl) d), ?_,
      getF_setF_same .., fun f hf => getF_setF_other _ _ _ _ hf⟩
    rw [← hdb]
    unfold dbFindById
    rw [getColl_putColl]
    have hfind := find_fresh_append ((getColl db n).getD emptyColl).docs
      (chooseId ((getColl db n).getD emptyColl) d)
      (setF d "_id" (chooseId ((getColl db n).getD emptyColl) d))
      (by simp only [Bool.not_eq_true] at hcont; exact hcont)
    simp [addDoc, hfind]

/-- C9 witness: inserting one document into the empty database and looking
its generated identifier up. -/
theorem insert_findById_roundtrip_witness :
    dbInsert emptyDB "users" aliceDoc
      = .ok (.vInt 0, putColl emptyDB "users" (applyOp emptyColl (.opInsert aliceDoc)))
    ∧ ∃ d2, dbFindById (putColl emptyDB "users" (applyOp emptyColl (.opInsert aliceDoc)))
          "users" (.vInt 0) = .ok d2
        ∧ getF d2 "_id" = some (.vInt 0)
        ∧ ∀ f, f ≠ "_id" → getF d2 f = getF aliceDoc f :=
  ⟨rfl, insert_findById_roundtrip emptyDB
    (putColl emptyDB "users" (applyOp emptyColl (.opInsert aliceDoc)))
    "users" aliceDoc (.vInt 0) rfl⟩

/-- Filtering one document's index entries by a different identifier keeps
them all; by its own identifier drops them all. -/
theorem filter_entriesFor (fs : List String) (i idv : Value) (d : Fields) :
    ((entriesFor fs i d).filter fun e => !beqV e.2 idv)
      = if beqV i idv then [] else entriesFor fs i d := by
  unfold entriesFor
  generalize indexKeys fs d = ks
  induction ks with
  | nil => simp
  | cons k t ih =>
    by_cases h : beqV i idv <;> simp [List.filter_cons, h, ih]

/-- Removing a document from storage and filtering its entries out of the
index projection commute. -/
theorem flatMap_filter_docs (docs : List (Value × Fields)) (fs : List String) (idv : Value) :
    ((docs.filter fun p => !beqV p.1 idv).flatMap fun p => entriesFor fs p.1 p.2)
      = ((docs.flatMap fun p => entriesFor fs p.1 p.2).filter fun e => !beqV e.2 idv) := by
  induction docs with
  | nil => simp
  | cons p t ih =>
    by_cases h : beqV p.1 idv <;>
      simp [List.filter_cons, List.flatMap_cons, List.filter_append,
        filter_entriesFor, h, ih]

/-- Every single mutation preserves the index-collection invariant. -/
theorem indexOk_applyOp (c : Coll) (op : Op) (h : indexOk c) : indexOk (applyOp c op) := by
  cases op with
  | opInsert d =>
    simp only [applyOp]
    cases hi : insert c d with
    | error e => exact h
    | ok p =>
      simp only [insert] at hi
      split_ifs at hi with h1 h2
      injection hi with hp
      rw [← hp]
      intro ix hix
      simp only [addDoc] at hix
      obtain ⟨ix0, hix0, rfl⟩ := List.mem_map.mp hix
      simp only [addDoc, List.flatMap_append, List.flatMap_cons, List.flatMap_nil,
        List.append_nil]
      rw [h ix0 hix0]
  | opUpdate id d =>
    simp only [applyOp]
    cases hu : update c id d with
    | error e => exact h
    | ok c2 =>
      simp only [update] at hu
      split_ifs at hu with h1 h2
      injection hu with hc2
      rw [← hc2]
      intro ix hix
      obtain ⟨ix0, hix0, rfl⟩ := List.mem_map.mp hix
      simp only [List.flatMap_append, List.flatMap_cons, List.flatMap_nil,
        List.append_nil, flatMap_filter_docs]
      rw [h ix0 hix0]
  | opDelete id =>
    simp only [applyOp]
    cases hd : erase c id with
    | error e => exact h
    | ok c2 =>
      simp only [erase] at hd
      split_ifs at hd with h1
      injection hd with hc2
      rw [← hc2]
      intro ix hix
      obtain ⟨ix0, hix0, rfl⟩ := List.mem_map.mp hix
      simp only [flatMap_filter_docs]
      rw [h ix0 hix0]
  | opCreateIndex fs u =>
    simp only [applyOp, createIndex]
    split_ifs with hex
    · exact h
    · intro ix hix
      rw [List.mem_append] at hix
      cases hix with
      | inl hin => exact h ix hin
      | inr hin =>
        simp only [List.mem_singleton] at hin
        subst hin
        rfl

/-- C2. Index-collection consistency: after any sequence of insert, update,
delete and index-creation operations applied to a consistent collection,
every index's contents exactly equal the projection of a full scan onto its
indexed field set — no omissions and no stale entries. -/
theorem index_collection_consistency (ops : List Op) (c : Coll) (h : indexOk c) :
    indexOk (applyOps c ops) := by
  induction ops generalizing c with
  | nil => exact h
  | cons op t ih => exact ih (applyOp c op) (indexOk_applyOp c op h)

/-- C2 witness: a concrete mutation sequence from the empty collection. -/
theorem index_collection_consistency_witness :
    indexOk emptyColl ∧ indexOk (applyOps emptyColl opsW) :=
  ⟨by simp [indexOk, emptyColl],
   index_collection_consistency opsW emptyColl (by simp [indexOk, emptyColl])⟩

/-- Scaling the query scales inner products with it linearly. -/
theorem dotP_map_left (c : ℚ) : ∀ (q a : List ℚ),
    dotP (q.map fun x => c * x) a = c * dotP q a
  | [], a => by simp [dotP]
  | x :: xs, [] => by simp [dotP]
  | x :: xs, b :: bs => by
    simp only [List.map_cons, dotP, dotP_map_left c xs bs]
    ring

/-- Scaling the stored vector scales inner products with it linearly. -/
theorem dotP_map_right (c : ℚ) : ∀ (q a : List ℚ),
    dotP q (a.map fun x => c * x) = c * dotP q a
  | [], a => by simp [dotP]
  | x :: xs, [] => by simp [dotP]
  | x :: xs, b :: bs => by
    simp only [List.map_cons, dotP, dotP_map_right c xs bs]
    ring

/-- The cosine closer-ordering is invariant under positive scaling of the
query vector: the engine normalizes internally. -/
theorem cosCloser_scale_query (c : ℚ) (hc : 0 < c) (q a b : List ℚ) :
    cosCloser (q.map fun x => c * x) a b = cosCloser q a b := by
  simp only [cosCloser, dotP_map_left]
  have hcc : (0 : ℚ) < c * c := by positivity
  have e : ∀ u v : ℚ, c * u * (c * u) * v = c * c * (u * u * v) := by
    intro u v
    ring
  by_cases h1 : 0 < dotP q a <;> by_cases h2 : 0 < dotP q b
  · rw [if_pos h1, if_pos h2, if_pos (by nlinarith : 0 < c * dotP q a),
      if_pos (by nlinarith : 0 < c * dotP q b)]
    exact decide_eq_decide.mpr (by rw [e, e, mul_lt_mul_left hcc])
  · rw [if_pos h1, if_neg h2, if_pos (by nlinarith : 0 < c * dotP q a),
      if_neg (by intro hcb; exact h2 (by nlinarith))]
  · rw [if_neg h1, if_pos h2, if_neg (by intro hca; exact h1 (by nlinarith)),
      if_pos (by nlinarith : 0 < c * dotP q b)]
  · rw [if_neg h1, if_neg h2, if_neg (by intro hca; exact h1 (by nlinarith)),
      if_neg (by intro hcb; exact h2 (by nlinarith))]
    exact decide_eq_decide.mpr (by rw [e, e, mul_lt_mul_left hcc])

/-- The cosine closer-ordering is also invariant under positive scaling of
a stored vector: stored vectors need not be pre-normalized either. -/
theorem cosCloser_scale_stored (c : ℚ) (hc : 0 < c) (q a b : List ℚ) :
    cosCloser q (a.map fun x => c * x) b = cosCloser q a b := by
  simp only [cosCloser, dotP_map_left, dotP_map_right]
  have hcc : (0 : ℚ) < c * c := by positivity
  have e1 : ∀ u v : ℚ, u * u * (c * (c * v)) = c * c * (u * u * v) := by
    intro u v
    ring
  have e2 : ∀ u v : ℚ, c * u * (c * u) * v = c * c * (u * u * v) := by
    intro u v
    ring
  by_cases h1 : 0 < dotP q a <;> by_cases h2 : 0 < dotP q b
  · rw [if_pos (show 0 < c * dotP q a by nlinarith), if_pos h2, if_pos h1, if_pos h2]
    exact decide_eq_decide.mpr (by rw [e1, e2, mul_lt_mul_left hcc])
  · rw [if_pos (show 0 < c * dotP q a by nlinarith), if_neg h2, if_pos h1, if_neg h2]
  · rw [if_neg (show ¬0 < c * dotP q a from fun hca => h1 (by nlinarith)),
      if_pos h2, if_neg h1, if_pos h2]
  · rw [if_neg (show ¬0 < c * dotP q a from fun hca => h1 (by nlinarith)),
      if_neg h2, if_neg h1, if_neg h2]
    exact decide_eq_decide.mpr (by rw [e2, e1, mul_lt_mul_left hcc])

/-- C8. Vector search sanity under cosine: in the 4-dimension cosine
collection holding exactly the unit vectors along the first two axes,
searching the query with components nine tenths and one tenth for k equal
to one returns the first-axis vector as the top result; and because the
score one minus cosine similarity is computed with internal normalization,
positively rescaling the query or a stored vector never changes the
closer-ordering — vectors need not be pre-normalized. -/
theorem cosine_search_top1 :
    vectorSearch cosColl qVec 1 = [0]
    ∧ (∀ c : ℚ, 0 < c → ∀ q a b : List ℚ,
        cosCloser (q.map fun x => c * x) a b = cosCloser q a b)
    ∧ (∀ c : ℚ, 0 < c → ∀ q a b : List ℚ,
        cosCloser q (a.map fun x => c * x) b = cosCloser q a b) := by
  refine ⟨?_, fun c hc => cosCloser_scale_query c hc, fun c hc => cosCloser_scale_stored c hc⟩
  norm_num [vectorSearch, rankAll, insertRanked, closer, cosCloser, cosColl, qVec, dotP]

/-- C8 witness: the scale-invariance clauses applied at the concrete query
and the two stored vectors, with scale factor two. -/
theorem cosine_search_top1_witness :
    (0 : ℚ) < 2
    ∧ cosCloser (qVec.map fun x => 2 * x) [1, 0, 0, 0] [0, 1, 0, 0]
        = cosCloser qVec [1, 0, 0, 0] [0, 1, 0, 0]
    ∧ cosCloser qVec ([1, 0, 0, 0].map fun x => 2 * x) [0, 1, 0, 0]
        = cosCloser qVec [1, 0, 0, 0] [0, 1, 0, 0] :=
  ⟨by norm_num,
   cosine_search_top1.2.1 2 (by norm_num) qVec [1, 0, 0, 0] [0, 1, 0, 0],
   cosine_search_top1.2.2 2 (by norm_num) qVec [1, 0, 0, 0] [0, 1, 0, 0]⟩

/-- A fixed-width encoding has exactly its width in bytes. -/
theorem natToBytes_length : ∀ (w n : Nat), (natToBytes w n).length = w
  | 0, _ => rfl
  | w + 1, n => by simp [natToBytes, natToBytes_length w (n / 256)]

/-- Reading back a fixed-width encoding yields the value reduced modulo
the width and consumes exactly the encoding. -/
theorem readBytes_natToBytes : ∀ (w n : Nat) (rest : List Nat),
    readBytes w (natToBytes w n ++ rest) = some (n % 256 ^ w, rest)
  | 0, n, rest => by simp [natToBytes, readBytes, Nat.mod_one]
  | w + 1, n, rest => by
    simp only [natToBytes, List.cons_append, readBytes, List.append_eq,
      readBytes_natToBytes w (n / 256) rest, Option.map_some']
    rw [pow_succ, mul_comm (256 ^ w) 256, Nat.mod_mul]

/-- Reading back an 8-byte encoding of a value below `2 ^ 64` is exact. -/
theorem readBytes_natToBytes8 (n : Nat) (rest : List Nat) (h : n < 2 ^ 64) :
    readBytes 8 (natToBytes 8 n ++ rest) = some (n, rest) := by
  rw [readBytes_natToBytes, Nat.mod_eq_of_lt (by norm_num; omega)]

/-- Reading back an encoded integer yields its two's-complement residue. -/
theorem readBytes_encInt (i : Int) (rest : List Nat) :
    readBytes 8 (encInt i ++ rest) = some ((i % (2 ^ 64 : Int)).toNat, rest) := by
  unfold encInt
  refine readBytes_natToBytes8 _ _ ?_
  omega

/-- The two's-complement residue decodes back to any 64-bit integer. -/
theorem decIntOf_emod (i : Int) (h1 : -(2 ^ 63) ≤ i) (h2 : i < 2 ^ 63) :
    decIntOf ((i % (2 ^ 64 : Int)).toNat) = i := by
  unfold decIntOf
  split <;> omega

/-- Reading back the encoded code points of a string recovers them. -/
theorem readChars_enc : ∀ (cs : List Char) (rest : List Nat),
    readChars cs.length ((cs.map fun c => natToBytes 4 c.toNat).flatten ++ rest)
      = some (cs, rest)
  | [], rest => by simp [readChars]
  | c :: t, rest => by
    have hlt : c.toNat < 256 ^ 4 := by
      have := c.val.toNat_lt
      simp only [Char.toNat]
      norm_num
      omega
    simp only [List.map_cons, List.flatten_cons, List.length_cons, List.append_assoc,
      readChars, readBytes_natToBytes, Nat.mod_eq_of_lt hlt, Option.some_bind,
      readChars_enc t rest, Option.map_some', Char.ofNat_toNat]

/-- Decoding an encoded string recovers it and consumes exactly its bytes. -/
theorem decStr_encStr (s : String) (rest : List Nat) (h : s.data.length < 2 ^ 64) :
    decStr (encStr s ++ rest) = some (s, rest) := by
  unfold decStr encStr
  rw [List.append_assoc, readBytes_natToBytes8 _ _ h]
  simp only [Option.some_bind, readChars_enc s.data rest, Option.map_some']

/-- Every value needs at least one unit of decoder fuel. -/
theorem szV_pos (v : Value) : 1 ≤ szV v := by
  cases v <;> simp [szV]

/-- Every sequence spine needs at least one unit of decoder fuel. -/
theorem szL_pos : ∀ xs : VList, 1 ≤ szL xs
  | .nil => le_refl 1
  | .cons v t => by
    have := szL_pos t
    simp only [szL]
    omega

/-- Every mapping spine needs at least one unit of decoder fuel. -/
theorem szF_pos : ∀ fs : Fields, 1 ≤ szF fs
  | .nil => le_refl 1
  | .cons k v t => by
    have := szF_pos t
    simp only [szF]
    omega

mutual

/-- With enough fuel, decoding an encoded representable value recovers it
and consumes exactly its bytes. -/
theorem decV_encV : ∀ (v : Value) (fuel : Nat) (rest : List Nat),
    reprV v = true → szV v ≤ fuel →
    decV fuel (encV v ++ rest) = some (v, rest)
  | .vNull, fuel, rest, hr, hf => by
    cases fuel with
    | zero => exact absurd hf (by simp [szV])
    | succ f => simp [encV, decV]
  | .vBool b, fuel, rest, hr, hf => by
    cases fuel with
    | zero => exact absurd hf (by simp [szV])
    | succ f => cases b <;> simp [encV, decV]
  | .vInt i, fuel, rest, hr, hf => by
    cases fuel with
    | zero => exact absurd hf (by simp [szV])
    | succ f =>
      simp only [reprV, Bool.and_eq_true, decide_eq_true_eq] at hr
      simp only [encV, List.cons_append, decV, readBytes_encInt, Option.map_some',
        decIntOf_emod i hr.1 hr.2]
  | .vFloat n, fuel, rest, hr, hf => by
    cases fuel with
    | zero => exact absurd hf (by simp [szV])
    | succ f =>
      simp only [reprV, decide_eq_true_eq] at hr
      simp only [encV, List.cons_append, decV, readBytes_natToBytes8 n rest hr,
        Option.map_some']
  | .vStr s, fuel, rest, hr, hf => by
    cases fuel with
    | zero => exact absurd hf (by simp [szV])
    | succ f =>
      simp only [reprV, decide_eq_true_eq] at hr
      simp only [encV, List.cons_append, decV, decStr_encStr s rest hr, Option.map_some']
  | .vTime t, fuel, rest, hr, hf => by
    cases fuel with
    | zero => exact absurd hf (by simp [szV])
    | succ f =>
      simp only [reprV, decide_eq_true_eq] at hr
      simp only [encV, List.cons_append, decV, readBytes_natToBytes8 t rest hr,
        Option.map_some']
  | .vArr xs, fuel, rest, hr, hf => by
    cases fuel with
    | zero => exact absurd hf (by simp [szV])
    | succ f =>
      simp only [reprV, Bool.and_eq_true, decide_eq_true_eq] at hr
      have hfl : szL xs ≤ f := by
        simp only [szV] at hf
        omega
      simp only [encV, List.cons_append, List.append_assoc, decV,
        readBytes_natToBytes8 (lenL xs) (encL xs ++ rest) hr.1, Option.some_bind,
        decLn_encL xs f rest hr.2 hfl, Option.map_some']
  | .vObj fs, fuel, rest, hr, hf => by
    cases fuel with
    | zero => exact absurd hf (by simp [szV])
    | succ f =>
      simp only [reprV, Bool.and_eq_true, decide_eq_true_eq] at hr
      have hfl : szF fs ≤ f := by
        simp only [szV] at hf
        omega
      simp only [encV, List.cons_append, List.append_assoc, decV,
        readBytes_natToBytes8 (lenF fs) (encF fs ++ rest) hr.1, Option.some_bind,
        decFn_encF fs f rest hr.2 hfl, Option.map_some']

/-- With enough fuel, decoding an encoded representable sequence of the
recorded element count recovers it. -/
theorem decLn_encL : ∀ (xs : VList) (fuel : Nat) (rest : List Nat),
    reprL xs = true → szL xs ≤ fuel →
    decLn fuel (lenL xs) (encL xs ++ rest) = some (xs, rest)
  | .nil, fuel, rest, hr, hf => by
    cases fuel with
    | zero => exact absurd hf (by simp [szL])
    | succ f => simp [lenL, encL, decLn]
  | .cons v t, fuel, rest, hr, hf => by
    cases fuel with
    | zero =>
      exact absurd hf (by simp only [szL]; have := szV_pos v; have := szL_pos t; omega)
    | succ f =>
      simp only [reprL, Bool.and_eq_true] at hr
      have hv : szV v ≤ f := by
        simp only [szL] at hf
        have := szL_pos t
        omega
      have ht : szL t ≤ f := by
        simp only [szL] at hf
        have := szV_pos v
        omega
      simp only [lenL, encL, List.append_assoc, decLn,
        decV_encV v f (encL t ++ rest) hr.1 hv, Option.some_bind,
        decLn_encL t f rest hr.2 ht, Option.map_some']

/-- With enough fuel, decoding an encoded representable mapping of the
recorded field count recovers it. -/
theorem decFn_encF : ∀ (fs : Fields) (fuel : Nat) (rest : List Nat),
    reprF fs = true → szF fs ≤ fuel →
    decFn fuel (lenF fs) (encF fs ++ rest) = some (fs, rest)
  | .nil, fuel, rest, hr, hf => by
    cases fuel with
    | zero => exact absurd hf (by simp [szF])
    | succ f => simp [lenF, encF, decFn]
  | .cons k v t, fuel, rest, hr, hf => by
    cases fuel with
    | zero =>
      exact absurd hf (by simp only [szF]; have := szV_pos v; have := szF_pos t; omega)
    | succ f =>
      simp only [reprF, Bool.and_eq_true, decide_eq_true_eq] at hr
      have hv : szV v ≤ f := by
        simp only [szF] at hf
        have := szF_pos t
        omega
      have ht : szF t ≤ f := by
        simp only [szF] at hf
        have := szV_pos v
        omega
      simp only [lenF, encF, List.append_assoc, decFn,
        decStr_encStr k (encV v ++ (encF t ++ rest)) hr.1.1, Option.some_bind,
        decV_encV v f (encF t ++ rest) hr.1.2 hv,
        decFn_encF t f rest hr.2 ht, Option.map_some']

end

mutual

/-- The encoding of a value is at least as long as its fuel need. -/
theorem szV_le_encV : ∀ v : Value, szV v ≤ (encV v).length
  | .vNull => le_refl 1
  | .vBool b => by simp [szV, encV]
  | .vInt i => by simp [szV, encV]
  | .vFloat n => by simp [szV, encV]
  | .vStr s => by simp [szV, encV]
  | .vTime t => by simp [szV, encV]
  | .vArr xs => by
    have := szL_le_encL xs
    simp only [szV, encV, List.length_cons, List.length_append, natToBytes_length]
    omega
  | .vObj fs => by
    have := szF_le_encF fs
    simp only [szV, encV, List.length_cons, List.length_append, natToBytes_length]
    omega

theorem szL_le_encL : ∀ xs : VList, szL xs ≤ (encL xs).length + 1
  | .nil => le_refl 1
  | .cons v t => by
    have h1 := szV_le_encV v
    have h2 := szL_le_encL t
    simp only [szL, encL, List.length_append]
    omega

theorem szF_le_encF : ∀ fs : Fields, szF fs ≤ (encF fs).length + 1
  | .nil => le_refl 1
  | .cons k v t => by
    have h1 := szV_le_encV v
    have h2 := szF_le_encF t
    simp only [szF, encF, List.length_append]
    omega

end

/-- C1. Document codec round-trip: decoding the encoding of any
representable document — strings, 64-bit integers and IEEE-754 double bit
patterns with the integer/float distinction kept by the tag byte, booleans,
null, nested mappings, ordered sequences and timestamps — yields the
document back exactly. -/
theorem codec_roundtrip (d : Value) (h : reprV d = true) :
    decode (encode d) = some d := by
  unfold decode encode
  have h1 := decV_encV d (encV d).length [] h (szV_le_encV d)
  rw [List.append_nil] at h1
  rw [h1]
  simp

/-- C1 witness: the round-trip evaluated on a document holding every value
type, including boundary integers and a float bit pattern. -/
theorem codec_roundtrip_witness :
    reprV wDoc = true ∧ decode (encode wDoc) = some wDoc :=
  ⟨rfl, codec_roundtrip wDoc rfl⟩

end KeraDB
